import Mathlib

/-!
Verification development for the Markdown-to-Google-Docs add-on.

The source is embedded shallowly over `List Char`.  Lines are processed by
the second (active) `parseAndInsertMarkdown` implementation in
`MarkdownParser.js`; host-document calls (`body.appendParagraph`,
`appendListItem`, `appendTable`, ...) are modelled as an emitted stream of
abstract block operations `Op`.  Regular expressions from the source are
embedded as executable matchers over `List Char`; lazy quantifiers and
global replacement follow the JavaScript semantics (leftmost match, minimal
content for a lazy group, scanning resumes after the match).
-/

namespace MD

/-- A JavaScript string, modelled as its list of characters. -/
abbrev Str := List Char

/-- Convenience conversion from a Lean string literal. -/
def cs (s : String) : Str := s.data

/-- JavaScript whitespace test used by the `\s` character class and by
`String.prototype.trim` (restricted to the ASCII whitespace characters that
can occur inside one line of split input). -/
def isWs (c : Char) : Bool :=
  c == ' ' || c == '\t' || c == '\n' || c == '\r' || c == '\x0b' || c == '\x0c'

/-- JavaScript `\w` character class: ASCII letters, digits, underscore. -/
def isWord (c : Char) : Bool := c.isAlpha || c.isDigit || c == '_'

/-- `pre` is a prefix of `s` (JavaScript `String.prototype.startsWith`). -/
def startsWithL : Str → Str → Bool
  | [], _ => true
  | _ :: _, [] => false
  | p :: ps, c :: csx => p == c && startsWithL ps csx

/-- Left trim. -/
def trimL (l : Str) : Str := l.dropWhile isWs

/-- Right trim. -/
def trimR (l : Str) : Str := (l.reverse.dropWhile isWs).reverse

/-- JavaScript `String.prototype.trim`. -/
def trimS (l : Str) : Str := trimL (trimR l)

/-- JavaScript `String.prototype.split` with a one-character separator. -/
def splitOnC (sep : Char) : Str → List Str
  | [] => [[]]
  | c :: r =>
    if c == sep then [] :: splitOnC sep r
    else
      match splitOnC sep r with
      | h :: t => (c :: h) :: t
      | [] => [[c]]

/-- `split('|')`, used by the table code. -/
def splitPipe : Str → List Str := splitOnC '|'

/-- `split('\n')`, used on the whole markdown text and inside `insertList`. -/
def splitNL : Str → List Str := splitOnC '\n'

/-- JavaScript `Array.prototype.join('\n')`. -/
def joinNL : List Str → Str
  | [] => []
  | [x] => x
  | x :: y :: t => x ++ '\n' :: joinNL (y :: t)

/-- The code-fence delimiter `` ``` `` as a character list. -/
def fenceStr : Str := ['`', '`', '`']

/-- The horizontal-rule prefix `---` as a character list. -/
def dashStr : Str := ['-', '-', '-']

/-- `regex.codeBlock` = `/^```/` and `line.startsWith('```')`. -/
def codeFenceT (l : Str) : Bool := startsWithL fenceStr l

/-- `line.startsWith('---')` (the horizontal-rule test of the active
line loop in `parseAndInsertMarkdown`). -/
def dashPrefixT (l : Str) : Bool := startsWithL dashStr l

/-- `regex.horizontalRule` = `/^-{3,}$/`: the whole line is three or more
dashes. -/
def hrTest (l : Str) : Bool := decide (3 ≤ l.length) && l.all (· == '-')

/-- Helper for `/^(#+)\s+/`: after the first `#`, consume further `#`
characters and then require one whitespace character. -/
def hashTail : Str → Bool
  | [] => false
  | c :: r => if c == '#' then hashTail r else isWs c

/-- `regex.heading` = `/^(#+)\s+(.*)/`: one or more `#`, then whitespace. -/
def headingT : Str → Bool
  | [] => false
  | c :: r => c == '#' && hashTail r

/-- `isHeading` in `MarkdownParser.js` = `/^#{1,6}\s/`. -/
def isHeadingP (l : Str) : Bool :=
  let n := (l.takeWhile (· == '#')).length
  decide (1 ≤ n) && decide (n ≤ 6) &&
    (match l.drop n with
     | c :: _ => isWs c
     | [] => false)

/-- After a whitespace skip: does the line start with a list marker
(`*`, `-`, `+`, or `digits.`) followed by one whitespace character?  This is
the body of `/^\s*(\-|\*|\+|\d+\.)\s/` and of `regex.listItem`
(`\s+(.*)` accepts exactly when one whitespace character follows). -/
def wsHead : Str → Bool
  | c :: _ => isWs c
  | [] => false

/-- Digits part of the `\d+\.` marker alternative. -/
def digitMarker (l : Str) : Bool :=
  let ds := l.takeWhile Char.isDigit
  decide (ds ≠ []) &&
    (match l.drop ds.length with
     | '.' :: r => wsHead r
     | _ => false)

/-- Marker-and-whitespace test at the start of a whitespace-stripped line. -/
def markerWs : Str → Bool
  | '-' :: r => wsHead r
  | '*' :: r => wsHead r
  | '+' :: r => wsHead r
  | l => digitMarker l

/-- `isList` = `/^\s*(\-|\*|\+|\d+\.)\s/` (also the acceptance set of
`regex.listItem`). -/
def isListT (l : Str) : Bool := markerWs (l.dropWhile isWs)

/-- `line.trim().replace(/^(\-|\*|\+|\d+\.)\s/, '')` applied after `trim`:
strips the marker and exactly one following whitespace character. -/
def stripMarker (l : Str) : Str :=
  match l with
  | '-' :: c :: r => if isWs c then r else l
  | '*' :: c :: r => if isWs c then r else l
  | '+' :: c :: r => if isWs c then r else l
  | _ =>
    let ds := l.takeWhile Char.isDigit
    if ds = [] then l
    else
      match l.drop ds.length with
      | '.' :: c :: r => if isWs c then r else l
      | _ => l

/-- `/^\s*\d+\./.test(line)` (`getListDetails.isOrdered` and the glyph test
in `insertList`). -/
def isOrderedT (l : Str) : Bool :=
  let r := l.dropWhile isWs
  let ds := r.takeWhile Char.isDigit
  decide (ds ≠ []) &&
    (match r.drop ds.length with
     | '.' :: _ => true
     | _ => false)

/-- `isBlockquote` in `MarkdownParser.js` = `/^\s*>/`. -/
def isBqP (l : Str) : Bool :=
  match l.dropWhile isWs with
  | '>' :: _ => true
  | _ => false

/-- `regex.blockquote` = `/^>\s*(.*)/` in `MarkdownUtils.js`: the line
starts with `>`. -/
def isBqU : Str → Bool
  | c :: _ => c == '>'
  | [] => false

/-- `line.replace(/^>\s?/, '')`: remove a leading `>` and at most one
following whitespace character (no-op when the line does not start with
`>`). -/
def deMark : Str → Str
  | '>' :: c :: r => if isWs c then r else c :: r
  | '>' :: [] => []
  | l => l

/-- `isTable` in `MarkdownParser.js`:
`/\|/.test(line) && (line.trim().indexOf('|') === 0 || /^[\|\s:\-]+$/.test(line.trim()))`. -/
def isTableT (l : Str) : Bool :=
  l.any (· == '|') &&
    (startsWithL ['|'] (trimS l) ||
      (decide (trimS l ≠ []) &&
        (trimS l).all (fun c => c == '|' || isWs c || c == ':' || c == '-')))

/-- `regex.table` = `/^\|(.+)\|$/`: at least three characters, bounded by
`|` at both ends. -/
def tableT (l : Str) : Bool :=
  decide (3 ≤ l.length) &&
    (match l with
     | c :: _ => c == '|'
     | [] => false) &&
    (match l.getLast? with
     | some c => c == '|'
     | none => false)

/-- Scanner for the interior of `regex.tableSeparator` =
`/^\|(:?-+:?)+\|$/`.  The flag records whether the scan is inside the dash
run of a group (at least one dash already seen, `true`) or at the start of
a new group (`false`): a group is an optional colon, one or more dashes,
and an optional closing colon. -/
def sepScan : Bool → Str → Bool
  | inD, [] => inD
  | inD, ':' :: r =>
    if inD then (r.isEmpty || sepScan false r)
    else
      match r with
      | '-' :: r2 => sepScan true r2
      | _ => false
  | _, '-' :: r => sepScan true r
  | _, _ :: _ => false

/-- A `(:?-+:?)+` run matching the whole string. -/
def sepGroupsStart (l : Str) : Bool := sepScan false l

/-- `regex.tableSeparator` = `/^\|(:?-+:?)+\|$/`. -/
def tableSepT (l : Str) : Bool :=
  match l with
  | '|' :: r =>
    match r.getLast? with
    | some '|' => sepGroupsStart r.dropLast
    | _ => false
  | _ => false

/-- One character occurs somewhere in the string; used for the `.*` gaps
of unanchored patterns. -/
def seq1After (c1 : Char) : Str → Bool
  | [] => false
  | c :: r => c == c1 || seq1After c1 r

/-- Two characters occur in this order (not necessarily adjacent). -/
def seq2After (c1 c2 : Char) : Str → Bool
  | [] => false
  | c :: r => if c == c1 then seq1After c2 r else seq2After c1 c2 r

/-- Three characters occur in this order (not necessarily adjacent). -/
def seq3After (c1 c2 c3 : Char) : Str → Bool
  | [] => false
  | c :: r => if c == c1 then seq2After c2 c3 r else seq3After c1 c2 c3 r

/-- `isImage` = `/!\[.*\]\(.*\)/.test(line)`: a contiguous `![` followed
(anywhere later) by `]`, then `(`, then `)`. -/
def isImageT : Str → Bool
  | [] => false
  | '!' :: '[' :: r => seq3After ']' '(' ')' r || isImageT ('[' :: r)
  | _ :: r => isImageT r

/-- Scan the reversed prefix before the last `)` for the nearest `](` of
the original string (which is the last `](`, matching the greedy first
`.*`); the characters skipped on the way form the captured group. -/
def imageCaptureAux : Str → Str → Option Str
  | '(' :: ']' :: _, acc => some acc
  | c :: r, acc => imageCaptureAux r (c :: acc)
  | [], _ => none

/-- Greedy capture for `extractImageUrl` = `line.match(/!\[.*\]\((.*)\)/)`
restricted to the suffix after the first `![`: the greedy groups select
the last `](` that still has a `)` after it, and the capture extends to
the last `)`. -/
def imageUrlFrom (r : Str) : Option Str :=
  match r.reverse.dropWhile (fun c => !(c == ')')) with
  | ')' :: beforeParen => imageCaptureAux beforeParen []
  | _ => none

/-- `extractImageUrl` in `MarkdownParser.js`. -/
def extractImageUrl : Str → Option Str
  | [] => none
  | '!' :: '[' :: r => imageUrlFrom r
  | _ :: r => extractImageUrl r

/-- One attempt of `regex.link` = `/\[([^\]]+)\]\(([^)]+)\)/` at a position
just after a `[`: one or more non-`]` characters, `]`, `(`, one or more
non-`)` characters, `)`. -/
def linkTry (r : Str) : Bool :=
  let t := r.takeWhile (fun c => !(c == ']'))
  decide (t ≠ []) &&
    (match r.dropWhile (fun c => !(c == ']')) with
     | ']' :: '(' :: r2 =>
       decide (r2.takeWhile (fun c => !(c == ')')) ≠ []) &&
         (match r2.dropWhile (fun c => !(c == ')')) with
          | ')' :: _ => true
          | _ => false)
     | _ => false)

/-- `regex.link.test(line)`: an inline link `[text](url)` occurs anywhere
in the line.  Also the model for the parser function `isLink`, which is
missing from the sources; the spec classifies a line as inline link by the
presence of this pattern. -/
def linkT : Str → Bool
  | [] => false
  | '[' :: r => linkTry r || linkT r
  | _ :: r => linkT r

/-- `extractFootnoteDefinition` pattern `/^\[\^(\w+)\]:\s*(.*)$/`,
returning the identifier and the definition text. -/
def fnoteDef (l : Str) : Option (Str × Str) :=
  match l with
  | '[' :: '^' :: r =>
    let w := r.takeWhile isWord
    if w = [] then none
    else
      match r.dropWhile isWord with
      | ']' :: ':' :: r2 => some (w, r2.dropWhile isWs)
      | _ => none
  | _ => none

/-- `extractLinkDefinition` pattern `/^\[(\w+)\]:\s*(\S+)(?:\s+"(.+)")?$/`,
returning the identifier and the `{url, title}` record (title empty when
the optional quoted part is absent). -/
def linkDef (l : Str) : Option (Str × (Str × Str)) :=
  match l with
  | '[' :: r =>
    let w := r.takeWhile isWord
    if w = [] then none
    else
      match r.dropWhile isWord with
      | ']' :: ':' :: r2 =>
        let r3 := r2.dropWhile isWs
        let u := r3.takeWhile (fun c => !(isWs c))
        if u = [] then none
        else
          match r3.dropWhile (fun c => !(isWs c)) with
          | [] => some (w, (u, []))
          | r4 =>
            -- `r4` is nonempty and starts with whitespace, so `\s+` holds;
            -- the optional part must then be a quoted title ending the line
            match r4.dropWhile isWs with
            | '"' :: mid =>
              if 2 ≤ mid.length then
                match mid.getLast? with
                | some '"' => some (w, (u, mid.dropLast))
                | _ => none
              else none
            | _ => none
      | _ => none
  | _ => none

/-- Find the earliest occurrence of `delim` in the string (the closing
delimiter chosen by a lazy `(.*?)` group): returns the content before it
and the remainder after it. -/
def findCloseD (delim : Str) : Str → Option (Str × Str)
  | [] => none
  | c :: r =>
    if startsWithL delim (c :: r) then some ([], (c :: r).drop delim.length)
    else
      match findCloseD delim r with
      | some p => some (c :: p.1, p.2)
      | none => none

/-- Try each delimiter of an alternation (for example `(\*\*\*|___)`) at
the current position: if it opens here and a matching close exists, return
the lazy content and the remainder after the close. -/
def tryDelims : List Str → Str → Option (Str × Str)
  | [], _ => none
  | d :: ds, s =>
    if d = [] then tryDelims ds s
    else if startsWithL d s then
      match findCloseD d (s.drop d.length) with
      | some p => some p
      | none => tryDelims ds s
    else tryDelims ds s

/-- `String.prototype.matchAll` for a pattern `(d1|d2)(.*?)\1`: the list of
lazy group contents, in match order.  The fuel argument bounds the scan;
the callers pass the string length, which suffices because every step
consumes at least one character. -/
def matchesAltAux (delims : List Str) : Nat → Str → List Str
  | _, [] => []
  | 0, _ => []
  | f + 1, c :: r =>
    match tryDelims delims (c :: r) with
    | some p => p.1 :: matchesAltAux delims f p.2
    | none => matchesAltAux delims f r

/-- All lazy group contents of `(d1|...|dn)(.*?)\1` over a string. -/
def matchesAlt (delims : List Str) (s : Str) : List Str :=
  matchesAltAux delims s.length s

/-- `String.prototype.replace` with a global pattern `delim(.*?)delim` and
replacement `pre ++ content ++ post` (fueled like `matchesAltAux`). -/
def replaceDelimAux (delim pre post : Str) : Nat → Str → Str
  | _, [] => []
  | 0, s => s
  | f + 1, c :: r =>
    if startsWithL delim (c :: r) then
      match findCloseD delim ((c :: r).drop delim.length) with
      | some p => pre ++ p.1 ++ post ++ replaceDelimAux delim pre post f p.2
      | none => c :: replaceDelimAux delim pre post f r
    else c :: replaceDelimAux delim pre post f r

/-- Global lazy delimiter replacement. -/
def replaceDelim (delim pre post : Str) (s : Str) : Str :=
  replaceDelimAux delim pre post s.length s

/-- `processAdvancedFormatting` in `MarkdownParser.js`: five sequential
global replacements simulating bold, italic and strikethrough with tags.
Note the function has no bold-italic pattern and rewrites `**` first. -/
def processAdvancedFormatting (l : Str) : Str :=
  replaceDelim (cs "~~") (cs "<strike>") (cs "</strike>")
    (replaceDelim (cs "_") (cs "<i>") (cs "</i>")
      (replaceDelim (cs "*") (cs "<i>") (cs "</i>")
        (replaceDelim (cs "__") (cs "<b>") (cs "</b>")
          (replaceDelim (cs "**") (cs "<b>") (cs "</b>") l))))

/-- One attempt of `/\[\^(\w+)\]/` just after a `[`: `^`, one or more
word characters, `]`; returns the identifier and the remainder. -/
def fnTryRef (r : Str) : Option (Str × Str) :=
  match r with
  | '^' :: r2 =>
    let w := r2.takeWhile isWord
    if w = [] then none
    else
      match r2.dropWhile isWord with
      | ']' :: rem => some (w, rem)
      | _ => none
  | _ => none

/-- `processFootnotesInText`: replace every `[^id]` with the empty string;
for each occurrence whose identifier is defined in the footnote table, a
footnote insertion side effect `(id, definition text)` is recorded, in
match order (`insertFootnoteContent` does nothing for unknown ids but the
marker is removed regardless). -/
def fnAux (fns : Str → Option Str) : Nat → Str → Str × List (Str × Str)
  | _, [] => ([], [])
  | 0, s => (s, [])
  | f + 1, '[' :: r =>
    match fnTryRef r with
    | some (w, rem) =>
      let p := fnAux fns f rem
      match fns w with
      | some t => (p.1, (w, t) :: p.2)
      | none => p
    | none =>
      let p := fnAux fns f r
      ('[' :: p.1, p.2)
  | f + 1, c :: r =>
    let p := fnAux fns f r
    (c :: p.1, p.2)

/-- `processFootnotesInText` wrapper. -/
def processFootnotesInText (fns : Str → Option Str) (s : Str) :
    Str × List (Str × Str) :=
  fnAux fns s.length s

/-- One attempt of `/\[([^\]]+)\]\[(\w+)\]/` just after a `[`: the greedy
link text (one or more non-`]` characters), `][`, the id (one or more word
characters), `]`; returns text, id and the remainder. -/
def refTry (r : Str) : Option (Str × Str × Str) :=
  let t := r.takeWhile (fun c => !(c == ']'))
  if t = [] then none
  else
    match r.dropWhile (fun c => !(c == ']')) with
    | ']' :: '[' :: r2 =>
      let w := r2.takeWhile isWord
      if w = [] then none
      else
        match r2.dropWhile isWord with
        | ']' :: rem => some (t, w, rem)
        | _ => none
    | _ => none

/-- `processReferenceLinksInText`: replace every `[text][id]` by
`text (url)` when `id` is defined in the reference-link table, and by the
bare `text` otherwise. -/
def refAux (links : Str → Option (Str × Str)) : Nat → Str → Str
  | fuel, s =>
    match s, fuel with
    | [], _ => []
    | c :: r, 0 => c :: r
    | c :: r, f + 1 =>
      if c = '[' then
        match refTry r with
        | some (t, w, rem) =>
          (match links w with
           | some ut => t ++ ' ' :: '(' :: ut.1 ++ [')']
           | none => t) ++ refAux links f rem
        | none => '[' :: refAux links f r
      else c :: refAux links f r

/-- `processReferenceLinksInText` wrapper. -/
def processReferenceLinksInText (links : Str → Option (Str × Str)) (s : Str) :
    Str :=
  refAux links s.length s

/-- The module-level mutable tables `footnotes` and `referenceLinks` of
`MarkdownParser.js`.  The `let footnotes = {}` / `let referenceLinks = {}`
declared inside `parseAndInsertMarkdown` shadow the globals and are dead:
`extractFootnoteDefinition`, `insertFootnoteContent`,
`extractLinkDefinition` and `processReferenceLinksInText` all read and
write the module-level objects, which persist across conversion calls. -/
structure Tables where
  fns : Str → Option Str
  links : Str → Option (Str × Str)

/-- The initial (empty) state of the module-level tables. -/
def emptyTables : Tables := ⟨fun _ => none, fun _ => none⟩

/-- JavaScript property assignment `m[k] = v` on an object used as a map. -/
def updF {V : Type} (m : Str → Option V) (k : Str) (v : V) : Str → Option V :=
  fun q => if q = k then some v else m q

/-- One line of the first pass: `extractFootnoteDefinition(line);
extractLinkDefinition(line);`. -/
def collectLine (tb : Tables) (l : Str) : Tables :=
  let tb1 :=
    match fnoteDef l with
    | some kv => { tb with fns := updF tb.fns kv.1 kv.2 }
    | none => tb
  match linkDef l with
  | some ku => { tb1 with links := updF tb1.links ku.1 ku.2 }
  | none => tb1

/-- The full first pass over all lines (the Reference Collector). -/
def collect (tb : Tables) (lines : List Str) : Tables :=
  lines.foldl collectLine tb

/-- Inline style flags of one character of an inserted element. -/
structure Flags where
  bold : Bool := false
  italic : Bool := false
  strike : Bool := false
  deriving DecidableEq, Repr

/-- A Google Docs text element: the appended text with per-character
style flags (`editAsText().setBold/...` range calls set flags without
changing the text). -/
structure Elt where
  chars : List (Char × Flags)
  deriving DecidableEq, Repr

/-- `body.appendParagraph(text)`: a fresh unstyled element. -/
def mkElt (s : Str) : Elt := ⟨s.map (fun c => (c, {}))⟩

/-- `element.getText()`. -/
def eltText (e : Elt) : Str := e.chars.map Prod.fst

/-- `editAsText().setX(startIndex, endIndex, true)` with an inclusive end
index, modelled over character positions. -/
def setRange (e : Elt) (start stop : Nat) (f : Flags → Flags) : Elt :=
  ⟨e.chars.enum.map fun p =>
    if start ≤ p.1 ∧ p.1 ≤ stop then (p.2.1, f p.2.2) else p.2⟩

/-- First index of `sub` in `full` (JavaScript `indexOf`); `none` when the
substring is absent (`indexOf` returns `-1` there, a case that cannot
arise for `matchAll` results of the same string). -/
def indexOfL (sub : Str) : Str → Option Nat
  | [] => if sub = [] then some 0 else none
  | c :: r =>
    if startsWithL sub (c :: r) then some 0
    else (indexOfL sub r).map (· + 1)

/-- Apply one pattern pass of `applyBasicFormatting`: for each `matchAll`
group content, locate it via `calculateMatchIndices` (`indexOf` on the
element text, inclusive end index `start + length - 1`) and set the style
flags on that range.  An empty group has end index `-1 < start`; the
range call touches no character there. -/
def applyMatches (e : Elt) (ms : List Str) (f : Flags → Flags) : Elt :=
  ms.foldl
    (fun e m =>
      if m = [] then e
      else
        match indexOfL m (eltText e) with
        | some i => setRange e i (i + m.length - 1) f
        | none => e)
    e

/-- `MarkdownUtils.applyBasicFormatting(element, text)`: bold-italic, then
bold, then italic, then strikethrough, each via `matchAll` on the
unchanged `text` argument. -/
def applyBasicFormatting (e : Elt) (text : Str) : Elt :=
  let e1 := applyMatches e (matchesAlt [cs "***", cs "___"] text)
    (fun f => { f with bold := true, italic := true })
  let e2 := applyMatches e1 (matchesAlt [cs "**", cs "__"] text)
    (fun f => { f with bold := true })
  let e3 := applyMatches e2 (matchesAlt [cs "*", cs "_"] text)
    (fun f => { f with italic := true })
  applyMatches e3 (matchesAlt [cs "~~"] text)
    (fun f => { f with strike := true })

/-- Recursive grouping helper for `runsOf`. -/
def runsAux : List (Char × Flags) → List (Str × Flags)
  | [] => []
  | (c, f) :: r =>
    match runsAux r with
    | (s, f2) :: t => if f2 = f then ((c :: s), f) :: t else ([c], f) :: (s, f2) :: t
    | [] => [([c], f)]

/-- Group the element characters into maximal runs of equal style flags. -/
def runsOf (e : Elt) : List (Str × Flags) :=
  runsAux e.chars

/-- Column alignment of a table cell
(`DocumentApp.HorizontalAlignment`). -/
inductive Align where
  | left
  | center
  | right
  deriving DecidableEq, Repr

/-- Unanchored test `/:-+:/.test(cell)`: somewhere a `:`, one or more `-`,
then `:`.  After a `:` and at least one `-`, look for the closing `:`
through further dashes. -/
def dashesColon : Str → Bool
  | ':' :: _ => true
  | '-' :: r => dashesColon r
  | _ => false

/-- Does `:-+:` match starting exactly here? -/
def centerHere : Str → Bool
  | ':' :: '-' :: r => dashesColon r
  | _ => false

/-- `/:-+:/.test(cell)` over all positions. -/
def hasCenter : Str → Bool
  | [] => false
  | c :: r => centerHere (c :: r) || hasCenter r

/-- Does `-+:` match starting exactly here? -/
def rightHere : Str → Bool
  | '-' :: r => dashesColon r
  | _ => false

/-- Unanchored test of the pattern `-+:` (one or more dashes then a
colon) over all positions, as in `insertTable`. -/
def hasRight : Str → Bool
  | [] => false
  | c :: r => rightHere (c :: r) || hasRight r

/-- The alignment mapping of `insertTable`: the pattern `:-+:` gives
CENTER, else the pattern `-+:` gives RIGHT, else LEFT. -/
def alignOf (cell : Str) : Align :=
  if hasCenter cell then .center
  else if hasRight cell then .right
  else .left

/-- One abstract block-construction operation: the host-document calls
performed by the active second pass, in order.  `indentPara` records the
`insertWithCustomIndentation` call (leading-whitespace length of the
processed text, trimmed text); `paragraph` records the following plain
`body.appendParagraph`. -/
inductive Op where
  | codeBlock (text : Str)
  | horizontalRule
  | image (url : Str)
  | blockquote (text : Str)
  | heading (level : Nat) (text : Str)
  | listItem (ordered : Bool) (level : Nat) (text : Str)
  | table (header : List Str) (aligns : List Align) (rows : List (List Str))
  | link (text : Str)
  | footnoteRef (id : Str) (text : Str)
  | indentPara (wsLen : Nat) (text : Str)
  | paragraph (text : Str)
  deriving DecidableEq, Repr

/-- `split('|')` then `filter(cell => cell.trim())`: the non-blank cells
of a table row (header and separator rows of `insertTable`). -/
def cellsOf (row : Str) : List Str :=
  (splitPipe row).filter (fun c => decide (trimS c ≠ []))

/-- `insertTable(body, tableLines)` of `MarkdownParser.js`: tables of
fewer than three buffered lines are rejected; otherwise one table is
created with trimmed header cells, alignments mapped from the second
line, and trimmed body-row cells (body rows keep any cell that is a
nonempty string before trimming). -/
def tableOps : List Str → List Op
  | l0 :: l1 :: l2 :: rest =>
    [Op.table ((cellsOf l0).map trimS)
      ((cellsOf l1).map alignOf)
      ((l2 :: rest).map fun r =>
        ((splitPipe r).filter (fun c => decide (c ≠ []))).map trimS)]
  | _ => []

/-- `while` loop of `insertList`: pop stack frames whose indentation is
at least the current indentation, decrementing the nesting counter once
per pop.  The stack keeps its top at the head. -/
def popStack : List Nat → Nat → Nat → List Nat × Nat
  | [], lvl, _ => ([], lvl)
  | top :: rest, lvl, ind =>
    if ind ≤ top then popStack rest (lvl - 1) ind else (top :: rest, lvl)

/-- The per-line body of `insertList`: for list-item lines, emit one list
item at the current nesting level (after popping), then push the frame
and set the counter to the stack size.  The stored indentation is the raw
leading-whitespace length; the source stores `length / 2`, and halving is
order-preserving so the `>=` pops agree. -/
def insertListSteps : List Nat → Nat → List Str → List Op
  | _, _, [] => []
  | st, lvl, line :: rest =>
    if isListT line then
      let ind := (line.takeWhile isWs).length
      let p := popStack st lvl ind
      Op.listItem (isOrderedT line) p.2 (stripMarker (trimS line)) ::
        insertListSteps (ind :: p.1) (p.1.length + 1) rest
    else insertListSteps st lvl rest

/-- `insertList(body, line)`: splits its argument on newlines and runs the
stack algorithm over the pieces.  The stack and counter are local
variables, so every call starts from an empty stack. -/
def insertList (line : Str) : List Op :=
  insertListSteps [] 0 (splitNL line)

/-- The local buffering state of the second pass of
`parseAndInsertMarkdown`. -/
structure PState where
  inTable : Bool := false
  tableLines : List Str := []
  inBlockquote : Bool := false
  blockquoteLines : List Str := []
  inCodeBlock : Bool := false
  codeBlockText : Str := []
  deriving DecidableEq, Repr

/-- Modelled from the spec: `processBlockquote` is applied to the buffered
de-marked blockquote lines before `insertBlockquote`, and its definition
is missing from the sources.  The spec says the buffer is joined with
newlines and emitted as one blockquote block, so the function is modelled
as the identity on the buffered lines. -/
def processBlockquote (ls : List Str) : List Str := ls

/-- One iteration of the second-pass `forEach` over the lines: returns the
updated local state and the host-document operations emitted for this
line, in order.  The branch structure mirrors the source if-chain; the
`isLink` branch uses the spec-modelled inline-link test `linkT` because
`isLink` and the line form of `insertLink` are missing from the sources
(the spec classifies by the presence of `[text](url)` and emits a
dedicated link operation). -/
def stepLine (tb : Tables) (s : PState) (line : Str) : PState × List Op :=
  if codeFenceT line then
    if s.inCodeBlock then
      ({ s with inCodeBlock := false, codeBlockText := [] },
       [Op.codeBlock (trimS s.codeBlockText)])
    else ({ s with inCodeBlock := true }, [])
  else if s.inCodeBlock then
    ({ s with codeBlockText := s.codeBlockText ++ line ++ ['\n'] }, [])
  else if dashPrefixT line then (s, [Op.horizontalRule])
  else if isImageT line then
    if s.inBlockquote then
      ({ s with blockquoteLines := s.blockquoteLines ++ [line] }, [])
    else
      match extractImageUrl line with
      | some u => (s, [Op.image u])
      | none => (s, [])
  else if isBqP line then
    ({ s with inBlockquote := true,
              blockquoteLines := s.blockquoteLines ++ [deMark line] }, [])
  else if (trimS line).isEmpty && s.inBlockquote then
    ({ s with inBlockquote := false, blockquoteLines := [] },
     [Op.blockquote (joinNL (processBlockquote s.blockquoteLines))])
  else if isHeadingP line then
    (s, [Op.heading (line.takeWhile (· == '#')).length
          (line.drop ((line.takeWhile (· == '#')).length + 1))])
  else if isListT line then (s, insertList line)
  else if isTableT line && !s.inTable then
    ({ s with inTable := true, tableLines := [line] }, [])
  else if !(isTableT line) && s.inTable then
    ({ s with inTable := false, tableLines := [] }, tableOps s.tableLines)
  else if isTableT line && s.inTable then
    ({ s with tableLines := s.tableLines ++ [line] }, [])
  else if linkT line then (s, [Op.link line])
  else
    let t1 := processAdvancedFormatting line
    let p := processFootnotesInText tb.fns t1
    let t3 := processReferenceLinksInText tb.links p.1
    let fops := p.2.map fun it => Op.footnoteRef it.1 it.2
    let iOp := Op.indentPara (t3.takeWhile isWs).length (trimS t3)
    if s.inBlockquote then
      ({ s with blockquoteLines := s.blockquoteLines ++ [t3] }, fops ++ [iOp])
    else if !s.inTable then (s, fops ++ [iOp, Op.paragraph t3])
    else (s, fops ++ [iOp])

/-- Run the second-pass loop over all lines, accumulating the emitted
operations. -/
def runLines (tb : Tables) (s : PState) : List Str → PState × List Op
  | [] => (s, [])
  | l :: ls =>
    let p1 := stepLine tb s l
    let p2 := runLines tb p1.1 ls
    (p2.1, p1.2 ++ p2.2)

/-- The finalization after the loop: flush a still-open table, blockquote
and code block, in that order. -/
def finalizeOps (s : PState) : List Op :=
  (if s.inTable then tableOps s.tableLines else []) ++
  (if s.inBlockquote then
    [Op.blockquote (joinNL (processBlockquote s.blockquoteLines))] else []) ++
  (if s.inCodeBlock then [Op.codeBlock (trimS s.codeBlockText)] else [])

/-- The operation stream of the main (second) pass for a given table
state: loop plus finalization.  The cursor-placement preamble that echoes
the raw input (lines 80-95 of the source) belongs to the excluded
host-document glue and is not part of the block-operation stream. -/
def mainPassOps (tb : Tables) (lines : List Str) : List Op :=
  let p := runLines tb {} lines
  p.2 ++ finalizeOps p.1

/-- One whole conversion call `parseAndInsertMarkdown` starting from the
given module-global tables: the first pass extends the global tables, the
second pass emits the operations.  Returns the tables as left for the
next call, and the operations. -/
def parseOps (tb : Tables) (lines : List Str) : Tables × List Op :=
  let tb2 := collect tb lines
  (tb2, mainPassOps tb2 lines)

/-- Operations of a conversion call in a fresh process (empty global
tables). -/
def opsOfLines (lines : List Str) : List Op :=
  (parseOps emptyTables lines).2

/-- Conversion of a markdown text blob: `markdownText.split('\n')`. -/
def parseAndInsertMarkdown (text : Str) : List Op :=
  opsOfLines (splitNL text)

/-- The line types returned by `MarkdownUtils.determineLineType`. -/
inductive LineType where
  | codeBlockEnd
  | codeBlockContent
  | codeBlockStart
  | heading
  | listItem
  | blockquote
  | horizontalRule
  | table
  | footnote
  | link
  | paragraph
  deriving DecidableEq, Repr

/-- `MarkdownUtils.determineLineType(line, context)`: the classifier
if-chain; returns the line type and the updated `context.inCodeBlock`
flag (the only context field it mutates). -/
def determineLineType (inCodeBlock : Bool) (l : Str) : LineType × Bool :=
  if inCodeBlock then
    if codeFenceT l then (.codeBlockEnd, false) else (.codeBlockContent, true)
  else if codeFenceT l then (.codeBlockStart, true)
  else
    ((if headingT l then .heading
      else if isListT l then .listItem
      else if isBqU l then .blockquote
      else if hrTest l then .horizontalRule
      else if tableT l || tableSepT l then .table
      else if (fnoteDef l).isSome then .footnote
      else if linkT l then .link
      else .paragraph), false)

/-! ## Shared helper lemmas -/

theorem dropWhile_length_le (p : Char → Bool) :
    ∀ l : Str, (l.dropWhile p).length ≤ l.length := by
  intro l
  induction l with
  | nil => simp [List.dropWhile]
  | cons c r ih =>
    cases h : p c
    · simp only [List.dropWhile, h]
      simp
    · simp only [List.dropWhile, h]
      exact Nat.le_succ_of_le ih

theorem takeWhile_app_stop (p : Char → Bool) :
    ∀ (xs : Str) (y : Char) (ys : Str), (∀ x ∈ xs, p x = true) → p y = false →
    ((xs ++ y :: ys).takeWhile p) = xs := by
  intro xs y ys hall hy
  induction xs with
  | nil => simp [List.takeWhile, hy]
  | cons x xr ih =>
    have hx : p x = true := hall x (by simp)
    simp only [List.cons_append, List.takeWhile, hx, List.append_eq]
    rw [ih (fun z hz => hall z (by simp [hz]))]

theorem dropWhile_app_stop (p : Char → Bool) :
    ∀ (xs : Str) (y : Char) (ys : Str), (∀ x ∈ xs, p x = true) → p y = false →
    ((xs ++ y :: ys).dropWhile p) = y :: ys := by
  intro xs y ys hall hy
  induction xs with
  | nil => simp [List.dropWhile, hy]
  | cons x xr ih =>
    have hx : p x = true := hall x (by simp)
    simp only [List.cons_append, List.dropWhile, hx, List.append_eq]
    exact ih (fun z hz => hall z (by simp [hz]))

theorem trimR_append_nl (x : Str) : trimR (x ++ ['\n']) = trimR x := by
  unfold trimR
  have h1 : (x ++ ['\n']).reverse = '\n' :: x.reverse := by simp
  rw [h1]
  have h2 : isWs '\n' = true := rfl
  simp [List.dropWhile, h2]

theorem trimS_append_nl (x : Str) : trimS (x ++ ['\n']) = trimS x := by
  unfold trimS
  rw [trimR_append_nl]

theorem flatten_nl_eq_joinNL :
    ∀ (x : Str) (L : List Str),
    ((x :: L).map (fun l => l ++ ['\n'])).flatten = joinNL (x :: L) ++ ['\n'] := by
  intro x L
  induction L generalizing x with
  | nil => simp [joinNL]
  | cons y L2 ih =>
    show (x ++ ['\n']) ++ ((y :: L2).map (fun l => l ++ ['\n'])).flatten = _
    rw [ih y]
    simp [joinNL]

theorem trimS_flatten_nl (L : List Str) :
    trimS ((L.map (fun l => l ++ ['\n'])).flatten) = trimS (joinNL L) := by
  cases L with
  | nil => simp [joinNL]
  | cons x L2 =>
    rw [flatten_nl_eq_joinNL, trimS_append_nl]

theorem runLines_append (tb : Tables) :
    ∀ (L1 L2 : List Str) (s : PState),
    runLines tb s (L1 ++ L2) =
      ((runLines tb (runLines tb s L1).1 L2).1,
       (runLines tb s L1).2 ++ (runLines tb (runLines tb s L1).1 L2).2) := by
  intro L1
  induction L1 with
  | nil => intro L2 s; simp [runLines]
  | cons l L1r ih =>
    intro L2 s
    show runLines tb s (l :: (L1r ++ L2)) = _
    simp only [runLines]
    rw [ih L2 (stepLine tb s l).1]
    simp [List.append_assoc]

theorem runLines_code_interior (tb : Tables) :
    ∀ (interior : List Str) (s : PState), s.inCodeBlock = true →
    (∀ l ∈ interior, codeFenceT l = false) →
    runLines tb s interior =
      ({ s with codeBlockText :=
          s.codeBlockText ++ (interior.map (fun l => l ++ ['\n'])).flatten }, []) := by
  intro interior
  induction interior with
  | nil => intro s hs _; simp [runLines]
  | cons l ls ih =>
    intro s hs hall
    have hl : codeFenceT l = false := hall l (by simp)
    have hstep : stepLine tb s l =
        ({ s with codeBlockText := s.codeBlockText ++ l ++ ['\n'] }, []) := by
      simp [stepLine, hl, hs]
    simp only [runLines, hstep]
    rw [ih _ (by simp [hs]) (fun z hz => hall z (by simp [hz]))]
    simp [List.append_assoc]

/-- Apply a list of optional key-value assignments to a map, oldest
first (the per-line table updates of the collection pass, abstracted). -/
def applyDefs {V : Type} (m : Str → Option V) (ds : List (Option (Str × V))) :
    Str → Option V :=
  ds.foldl (fun m d => match d with | some kv => updF m kv.1 kv.2 | none => m) m

/-- The value of the last assignment to key `k` in the list, if any. -/
def lastVal {V : Type} : List (Option (Str × V)) → Str → Option V
  | [], _ => none
  | d :: ds, k =>
    match lastVal ds k with
    | some v => some v
    | none =>
      match d with
      | some kv => if k = kv.1 then some kv.2 else none
      | none => none

theorem applyDefs_apply {V : Type} :
    ∀ (ds : List (Option (Str × V))) (m : Str → Option V) (k : Str),
    applyDefs m ds k =
      (match lastVal ds k with | some v => some v | none => m k) := by
  intro ds
  induction ds with
  | nil => intro m k; simp [applyDefs, lastVal]
  | cons d ds2 ih =>
    intro m k
    show applyDefs (match d with | some kv => updF m kv.1 kv.2 | none => m) ds2 k = _
    rw [ih]
    cases h : lastVal ds2 k with
    | some v => simp [lastVal, h]
    | none =>
      simp only [lastVal, h]
      cases d with
      | none => simp
      | some kv =>
        by_cases hk : k = kv.1
        · simp [updF, hk]
        · simp [updF, hk]

theorem applyDefs_cons {V : Type} (m : Str → Option V) (d : Option (Str × V))
    (ds : List (Option (Str × V))) :
    applyDefs m (d :: ds) =
      applyDefs (match d with | some kv => updF m kv.1 kv.2 | none => m) ds := rfl

theorem applyDefs_idem {V : Type} (m : Str → Option V)
    (ds : List (Option (Str × V))) :
    applyDefs (applyDefs m ds) ds = applyDefs m ds := by
  funext k
  rw [applyDefs_apply, applyDefs_apply]
  cases h : lastVal ds k <;> rfl

theorem collectLine_fns (tb : Tables) (l : Str) :
    (collectLine tb l).fns =
      (match fnoteDef l with
       | some kv => updF tb.fns kv.1 kv.2
       | none => tb.fns) := by
  cases h1 : fnoteDef l <;> cases h2 : linkDef l <;>
    simp [collectLine, h1, h2]

theorem collectLine_links (tb : Tables) (l : Str) :
    (collectLine tb l).links =
      (match linkDef l with
       | some ku => updF tb.links ku.1 ku.2
       | none => tb.links) := by
  cases h1 : fnoteDef l <;> cases h2 : linkDef l <;>
    simp [collectLine, h1, h2]

theorem collect_fns :
    ∀ (L : List Str) (tb : Tables),
    (collect tb L).fns = applyDefs tb.fns (L.map fnoteDef) := by
  intro L
  induction L with
  | nil => intro tb; simp [collect, applyDefs]
  | cons l L2 ih =>
    intro tb
    show (collect (collectLine tb l) L2).fns = _
    rw [ih, List.map_cons, applyDefs_cons, collectLine_fns]
    cases fnoteDef l <;> rfl

theorem collect_links :
    ∀ (L : List Str) (tb : Tables),
    (collect tb L).links = applyDefs tb.links (L.map linkDef) := by
  intro L
  induction L with
  | nil => intro tb; simp [collect, applyDefs]
  | cons l L2 ih =>
    intro tb
    show (collect (collectLine tb l) L2).links = _
    rw [ih, List.map_cons, applyDefs_cons, collectLine_links]
    cases linkDef l <;> rfl

theorem tables_eq (a b : Tables) (h1 : a.fns = b.fns) (h2 : a.links = b.links) :
    a = b := by
  cases a; cases b
  cases h1; cases h2
  rfl

theorem collect_idem (tb : Tables) (L : List Str) :
    collect (collect tb L) L = collect tb L := by
  apply tables_eq
  · rw [collect_fns, collect_fns, applyDefs_idem]
  · rw [collect_links, collect_links, applyDefs_idem]

theorem refTry_len :
    ∀ (r t w rem : Str), refTry r = some (t, w, rem) → rem.length ≤ r.length := by
  intro r t w rem h
  simp only [refTry] at h
  split at h
  · exact absurd h (by simp)
  · split at h
    · split at h
      · exact absurd h (by simp)
      · split at h
        · rename_i r2 hdrop w2 hw rem2 hdrop2
          have h1 : (r.dropWhile (fun c => !(c == ']'))).length ≤ r.length :=
            dropWhile_length_le _ r
          have h2 : (r2.dropWhile isWord).length ≤ r2.length :=
            dropWhile_length_le _ r2
          rw [hdrop] at h1
          rw [hdrop2] at h2
          simp only [List.length_cons] at h1 h2
          simp only [Option.some.injEq, Prod.mk.injEq] at h
          have hr : rem = rem2 := h.2.2.symm
          subst hr
          omega
        · exact absurd h (by simp)
    · exact absurd h (by simp)


theorem refAux_nil (links : Str → Option (Str × Str)) (f : Nat) :
    refAux links f [] = [] := by
  cases f <;> rfl

theorem refAux_norm (links : Str → Option (Str × Str)) :
    ∀ (n : Nat) (s : Str) (f1 f2 : Nat), s.length ≤ n → s.length ≤ f1 →
    s.length ≤ f2 → refAux links f1 s = refAux links f2 s := by
  intro n
  induction n with
  | zero =>
    intro s f1 f2 hn _ _
    have hs : s = [] := List.eq_nil_of_length_eq_zero (Nat.le_zero.mp hn)
    subst hs
    rw [refAux_nil, refAux_nil]
  | succ n ih =>
    intro s f1 f2 hn h1 h2
    cases s with
    | nil => rw [refAux_nil, refAux_nil]
    | cons c r =>
      cases f1 with
      | zero => simp at h1
      | succ g1 =>
        cases f2 with
        | zero => simp at h2
        | succ g2 =>
          simp only [List.length_cons, Nat.succ_le_succ_iff] at hn h1 h2
          conv_lhs => rw [refAux]
          conv_rhs => rw [refAux]
          by_cases hc : c = '['
          · subst hc
            simp only [if_pos rfl]
            cases ht : refTry r with
            | none => exact congrArg _ (ih r g1 g2 hn h1 h2)
            | some p =>
              obtain ⟨t, w, rem⟩ := p
              have hlen : rem.length ≤ r.length := refTry_len r t w rem ht
              exact congrArg _ (ih rem g1 g2 (by omega) (by omega) (by omega))
          · simp only [if_neg hc]
            exact congrArg _ (ih r g1 g2 hn h1 h2)

theorem refTry_canonical (t w post : Str) (ht : t ≠ [])
    (htc : ∀ c ∈ t, (c == ']') = false) (hw : w ≠ [])
    (hwc : ∀ c ∈ w, isWord c = true) :
    refTry (t ++ ']' :: '[' :: (w ++ ']' :: post)) = some (t, w, post) := by
  have hstop : (fun c => !(c == ']')) ']' = false := by decide
  have hkeep : ∀ x ∈ t, (fun c => !(c == ']')) x = true := fun x hx => by
    simp [htc x hx]
  have h1 : ((t ++ ']' :: '[' :: (w ++ ']' :: post)).takeWhile
      (fun c => !(c == ']'))) = t :=
    takeWhile_app_stop _ t ']' ('[' :: (w ++ ']' :: post)) hkeep hstop
  have h2 : ((t ++ ']' :: '[' :: (w ++ ']' :: post)).dropWhile
      (fun c => !(c == ']'))) = ']' :: '[' :: (w ++ ']' :: post) :=
    dropWhile_app_stop _ t ']' ('[' :: (w ++ ']' :: post)) hkeep hstop
  have h3 : ((w ++ ']' :: post).takeWhile isWord) = w :=
    takeWhile_app_stop _ w ']' post (fun x hx => hwc x hx) (by rfl)
  have h4 : ((w ++ ']' :: post).dropWhile isWord) = ']' :: post :=
    dropWhile_app_stop _ w ']' post (fun x hx => hwc x hx) (by rfl)
  simp only [refTry, h1, h2, if_neg ht]
  simp [h3, h4, if_neg hw]

theorem refLinks_cons (links : Str → Option (Str × Str)) (c : Char)
    (rest : Str) (hc : ¬ c = '[') :
    processReferenceLinksInText links (c :: rest) =
      c :: processReferenceLinksInText links rest := by
  show refAux links (c :: rest).length (c :: rest) = _
  conv_lhs => rw [refAux.eq_def]
  simp only [List.length_cons]
  simp only [if_neg hc]
  rfl

theorem refLinks_at_match (links : Str → Option (Str × Str))
    (t w post : Str) (ht : t ≠ []) (htc : ∀ c ∈ t, (c == ']') = false)
    (hw : w ≠ []) (hwc : ∀ c ∈ w, isWord c = true) :
    processReferenceLinksInText links
        ('[' :: (t ++ ']' :: '[' :: (w ++ ']' :: post))) =
      (match links w with
       | some ut => t ++ ' ' :: '(' :: ut.1 ++ [')']
       | none => t) ++ processReferenceLinksInText links post := by
  show refAux links ('[' :: (t ++ ']' :: '[' :: (w ++ ']' :: post))).length _ = _
  conv_lhs => rw [refAux.eq_def]
  simp only [List.length_cons, if_pos rfl, refTry_canonical t w post ht htc hw hwc]
  have hle : post.length ≤ (t ++ ']' :: '[' :: (w ++ ']' :: post)).length := by
    simp only [List.length_append, List.length_cons]
    omega
  rw [refAux_norm links (t ++ ']' :: '[' :: (w ++ ']' :: post)).length post
      (t ++ ']' :: '[' :: (w ++ ']' :: post)).length post.length hle hle (Nat.le_refl _)]
  rfl

/-! ## Claim C1 -/

/-- Claim C1 (code bug): the spec says consecutive list-item lines with
leading indentation 0,2,4,2,0 spaces get nesting levels 0,1,2,1,0 from the
indentation stack.  The active loop calls `insertList` once per line, and
the stack is a local variable of `insertList`, so every item is emitted at
nesting level 0; running the same `insertList` stack algorithm over the
five lines joined into one string (as its own comments intend) produces
exactly the claimed levels 0,1,2,1,0. -/
theorem C1_theorem :
    opsOfLines [cs "- a", cs "  - b", cs "    - c", cs "  - d", cs "- e"] =
      [Op.listItem false 0 (cs "a"), Op.listItem false 0 (cs "b"),
       Op.listItem false 0 (cs "c"), Op.listItem false 0 (cs "d"),
       Op.listItem false 0 (cs "e")] ∧
    insertList (cs "- a\n  - b\n    - c\n  - d\n- e") =
      [Op.listItem false 0 (cs "a"), Op.listItem false 1 (cs "b"),
       Op.listItem false 2 (cs "c"), Op.listItem false 1 (cs "d"),
       Op.listItem false 0 (cs "e")] := by
  constructor
  · decide
  · decide

/-! ## Claim C2 -/

/-- Claim C2 counterexample: for the fenced block with the single interior
line "  code", the emitted CodeBlock text is "code", not the exact
newline-join of the interior lines (which is "  code"). -/
theorem C2_counterexample :
    opsOfLines [cs "```", cs "  code", cs "```"] = [Op.codeBlock (cs "code")] ∧
    ¬ (opsOfLines [cs "```", cs "  code", cs "```"] =
        [Op.codeBlock (joinNL [cs "  code"])]) := by
  constructor
  · decide
  · decide

/-- Claim C2 (amended): for every well-formed fenced code block -- an
opening fence line, interior lines none of which start a fence, and a
closing fence line -- the conversion emits exactly one CodeBlock whose
text is the interior lines joined by newline and then trimmed of leading
and trailing whitespace; no inline-pattern substitution is applied to any
interior line. -/
theorem C2_theorem :
    ∀ (op cl : Str) (interior : List Str),
    codeFenceT op = true → codeFenceT cl = true →
    (∀ l ∈ interior, codeFenceT l = false) →
    opsOfLines (op :: (interior ++ [cl])) =
      [Op.codeBlock (trimS (joinNL interior))] := by
  intro op cl interior hop hcl hint
  show mainPassOps (collect emptyTables (op :: (interior ++ [cl])))
      (op :: (interior ++ [cl])) = _
  set tb := collect emptyTables (op :: (interior ++ [cl])) with htb
  have hstep1 : stepLine tb {} op = ({ inCodeBlock := true }, []) := by
    simp [stepLine, hop]
  simp only [mainPassOps, runLines, hstep1]
  rw [runLines_append]
  rw [runLines_code_interior tb interior { inCodeBlock := true } rfl hint]
  have hstep2 : stepLine tb
      { inCodeBlock := true,
        codeBlockText :=
          (PState.codeBlockText { inCodeBlock := true }) ++
            (interior.map (fun l => l ++ ['\n'])).flatten } cl =
      ({}, [Op.codeBlock (trimS ((interior.map (fun l => l ++ ['\n'])).flatten))]) := by
    simp [stepLine, hcl]
  simp only [runLines, hstep2, finalizeOps]
  simp [trimS_flatten_nl]

/-- Claim C2 witness: the amended theorem applied to a concrete fenced
block. -/
theorem C2_witness :
    opsOfLines [cs "```", cs "print(1)", cs "```"] =
      [Op.codeBlock (trimS (joinNL [cs "print(1)"]))] :=
  C2_theorem (cs "```") (cs "```") [cs "print(1)"] (by decide) (by decide)
    (by decide)

/-! ## Claim C3 -/

/-- Claim C3 counterexample: the input consisting of the two table lines
"| a | b |" and "| c | d |" ends with the table context still open, yet
the whole conversion emits no operation at all -- the unterminated
two-line table buffer is dropped by finalization instead of being flushed
as a closing block operation. -/
theorem C3_counterexample :
    (runLines emptyTables {} [cs "| a | b |", cs "| c | d |"]).1.inTable = true ∧
    opsOfLines [cs "| a | b |", cs "| c | d |"] = [] := by
  constructor
  · decide
  · decide

/-- Claim C3 (amended): the unclosed fence example still produces one
CodeBlock("code") via finalization, and in general finalization flushes a
still-open code block buffer as a CodeBlock, a still-open blockquote
buffer as a BlockquoteBlock, and a still-open table buffer as a table
operation provided it holds at least three lines. -/
theorem C3_theorem :
    opsOfLines [cs "```", cs "code", cs ""] = [Op.codeBlock (cs "code")] ∧
    ∀ s : PState,
      (s.inCodeBlock = true →
        Op.codeBlock (trimS s.codeBlockText) ∈ finalizeOps s) ∧
      (s.inBlockquote = true →
        Op.blockquote (joinNL (processBlockquote s.blockquoteLines)) ∈
          finalizeOps s) ∧
      (s.inTable = true → 3 ≤ s.tableLines.length →
        ∃ h a r, Op.table h a r ∈ finalizeOps s) := by
  constructor
  · decide
  · intro s
    refine ⟨?_, ?_, ?_⟩
    · intro hcb
      simp [finalizeOps, hcb]
    · intro hbq
      simp [finalizeOps, hbq]
    · intro hit hlen
      rcases h : s.tableLines with _ | ⟨a, _ | ⟨b, _ | ⟨c, r⟩⟩⟩ <;>
        rw [h] at hlen
      · simp at hlen
      · simp at hlen
      · simp at hlen
      · refine ⟨(cellsOf a).map trimS, (cellsOf b).map alignOf,
          ((c :: r).map fun row =>
            ((splitPipe row).filter (fun x => decide (x ≠ []))).map trimS), ?_⟩
        simp [finalizeOps, hit, h, tableOps]

/-- Claim C3 witness: the finalization membership applied to a concrete
open code-block state. -/
theorem C3_witness :
    Op.codeBlock (trimS (cs " x ")) ∈
      finalizeOps { inCodeBlock := true, codeBlockText := cs " x " } :=
  (C3_theorem.2 { inCodeBlock := true, codeBlockText := cs " x " }).1 rfl

/-! ## Claim C4 -/

/-- Claim C4 (code bug): for the input with definition line "[^a]: note"
and reference line "text[^a]", the conversion emits the footnote side
effect for "a" twice -- once triggered by the definition line itself,
which additionally produces indented and plain paragraphs of the residual
text ": note" -- whereas the claim (and the spec) require exactly one
FootnoteRef at the reference site and no output for the definition line. -/
theorem C4_theorem :
    opsOfLines [cs "[^a]: note", cs "text[^a]"] =
      [Op.footnoteRef (cs "a") (cs "note"), Op.indentPara 0 (cs ": note"),
       Op.paragraph (cs ": note"), Op.footnoteRef (cs "a") (cs "note"),
       Op.indentPara 0 (cs "text"), Op.paragraph (cs "text")] := by
  decide


/-! ## Claim C5 -/

/-- Claim C5 counterexample: the buffered table with header "| a | b |",
valid separator row "|---|" and body row "| 1 | 2 |" is emitted with two
header cells but only one alignment entry, so the alignment count does
not equal the header cell count. -/
theorem C5_counterexample :
    tableSepT (cs "|---|") = true ∧
    tableOps [cs "| a | b |", cs "|---|", cs "| 1 | 2 |"] =
      [Op.table [cs "a", cs "b"] [Align.left] [[cs "1", cs "2"]]] ∧
    ¬ ([Align.left].length = [cs "a", cs "b"].length) := by
  refine ⟨by decide, by decide, by decide⟩

/-- Claim C5 (amended): every buffered table of three or more lines emits
one table block whose alignments are mapped cell-by-cell from the second
buffered line, so the alignment count equals the number of non-blank
separator cells; it equals the header cell count exactly when the
separator row has as many non-blank cells as the header row.  The
per-cell mapping is the claimed one: the pattern `:-+:` gives CENTER,
else `-+:` gives RIGHT, else LEFT. -/
theorem C5_theorem :
    ∀ (l0 l1 : Str) (rest : List Str), rest ≠ [] →
    (tableOps (l0 :: l1 :: rest) =
      [Op.table ((cellsOf l0).map trimS) ((cellsOf l1).map alignOf)
        (rest.map fun r =>
          ((splitPipe r).filter (fun c => decide (c ≠ []))).map trimS)] ∧
     ((cellsOf l1).map alignOf).length = (cellsOf l1).length ∧
     ((cellsOf l1).length = (cellsOf l0).length →
       ((cellsOf l1).map alignOf).length = ((cellsOf l0).map trimS).length) ∧
     (∀ cell, hasCenter cell = true → alignOf cell = Align.center) ∧
     (∀ cell, hasCenter cell = false → hasRight cell = true →
       alignOf cell = Align.right) ∧
     (∀ cell, hasCenter cell = false → hasRight cell = false →
       alignOf cell = Align.left) ∧
     alignOf (cs ":---:") = Align.center ∧ alignOf (cs "---:") = Align.right ∧
     alignOf (cs ":---") = Align.left ∧ alignOf (cs "---") = Align.left) := by
  intro l0 l1 rest hrest
  refine ⟨?_, by simp, ?_, ?_, ?_, ?_, by decide, by decide, by decide, by decide⟩
  · cases rest with
    | nil => exact absurd rfl hrest
    | cons l2 r2 => rfl
  · intro h
    simp [h]
  · intro cell hc
    simp [alignOf, hc]
  · intro cell hc hr
    simp [alignOf, hc, hr]
  · intro cell hc hr
    simp [alignOf, hc, hr]

/-- Claim C5 witness: the amended theorem applied to a concrete centered
one-column table. -/
theorem C5_witness :
    tableOps [cs "| a |", cs "|:---:|", cs "| 1 |"] =
      [Op.table [cs "a"] [Align.center] [[cs "1"]]] := by
  have h := C5_theorem (cs "| a |") (cs "|:---:|") [cs "| 1 |"] (by decide)
  exact h.1.trans (by decide)

/-! ## Claim C6 -/

/-- Claim C6 counterexample: after the blockquote line "> q", the plain
terminating line "plain" is absorbed into the blockquote buffer -- the
emitted blockquote text is "q\nplain", not "q" followed by a reprocessed
paragraph. -/
theorem C6_counterexample :
    opsOfLines [cs "> q", cs "plain"] =
      [Op.indentPara 0 (cs "plain"), Op.blockquote (cs "q\nplain")] ∧
    ¬ (cs "q\nplain" = cs "q") := by
  refine ⟨by decide, by decide⟩

/-- Claim C6 (amended): a blockquote run is flushed only by a blank line
or by end-of-input finalization.  On a blank line the parser emits exactly
one BlockquoteBlock with the newline-joined de-marked buffer and nothing
else; on a plain default-classified line while buffering, the line is
appended to the blockquote buffer (and separately emitted as an indented
paragraph), so the buffer is not flushed and the line is not reprocessed. -/
theorem C6_theorem :
    opsOfLines [cs "> a", cs "> b", cs ""] = [Op.blockquote (cs "a\nb")] ∧
    (∀ (tb : Tables) (s : PState), s.inCodeBlock = false →
      s.inBlockquote = true →
      stepLine tb s [] =
        ({ s with inBlockquote := false, blockquoteLines := [] },
         [Op.blockquote (joinNL (processBlockquote s.blockquoteLines))])) ∧
    (∀ (tb : Tables) (s : PState), s.inCodeBlock = false →
      s.inBlockquote = true → s.inTable = false →
      stepLine tb s (cs "plain") =
        ({ s with blockquoteLines := s.blockquoteLines ++ [cs "plain"] },
         [Op.indentPara 0 (cs "plain")])) := by
  refine ⟨by decide, ?_, ?_⟩
  · intro tb s hcb hbq
    have e1 : codeFenceT ([] : Str) = false := rfl
    have e2 : dashPrefixT ([] : Str) = false := rfl
    have e3 : isImageT ([] : Str) = false := rfl
    have e4 : isBqP ([] : Str) = false := rfl
    have e5 : (trimS ([] : Str)).isEmpty = true := rfl
    simp [stepLine, e1, e2, e3, e4, e5, hcb, hbq]
  · intro tb s hcb hbq hit
    have e1 : codeFenceT (cs "plain") = false := rfl
    have e2 : dashPrefixT (cs "plain") = false := rfl
    have e3 : isImageT (cs "plain") = false := rfl
    have e4 : isBqP (cs "plain") = false := rfl
    have e5 : (trimS (cs "plain")).isEmpty = false := rfl
    have e6 : isHeadingP (cs "plain") = false := rfl
    have e7 : isListT (cs "plain") = false := rfl
    have e8 : isTableT (cs "plain") = false := rfl
    have e9 : linkT (cs "plain") = false := rfl
    have e10 : processAdvancedFormatting (cs "plain") = cs "plain" := rfl
    have e11 : processFootnotesInText tb.fns (cs "plain") = (cs "plain", []) := rfl
    have e12 : processReferenceLinksInText tb.links (cs "plain") = cs "plain" := rfl
    simp [stepLine, e1, e2, e3, e4, e5, e6, e7, e8, e9, e10, e11, e12,
      hcb, hbq, hit]
    exact ⟨fun _ => by decide, by decide⟩

/-- Claim C6 witness: the blank-line flush applied to a concrete buffering
state. -/
theorem C6_witness :
    stepLine emptyTables
        { inBlockquote := true, blockquoteLines := [cs "a", cs "b"] } [] =
      (({} : PState), [Op.blockquote (cs "a\nb")]) := by
  have h := C6_theorem.2.1 emptyTables
    { inBlockquote := true, blockquoteLines := [cs "a", cs "b"] } rfl rfl
  exact h.trans (by decide)

/-! ## Claim C7 -/

/-- Claim C7 counterexample: formatting "***bold-italic***" through
`applyBasicFormatting` does not yield exactly one run -- the marker
characters are never removed from the element text, so four runs result. -/
theorem C7_counterexample :
    ¬ ((runsOf (applyBasicFormatting (mkElt (cs "***bold-italic***"))
        (cs "***bold-italic***"))).length = 1) := by
  decide

/-- Claim C7 (amended): `applyBasicFormatting` applies its patterns in the
order bold-italic, bold, italic, strikethrough -- the bold-italic
`matchAll` pass sees the whole inner span "bold-italic" -- but only sets
style flags on ranges of the unchanged text, so "***bold-italic***" yields
the four runs "**" unstyled, "*" bold, "bold-italic" bold and italic,
"***" unstyled, and "**bold** and *italic*" yields five runs with the
markers surviving as text; `processAdvancedFormatting`, used by the line
loop, has no bold-italic pattern and rewrites bold first, producing the
overlapping tags "<b><i>bold-italic</b></i>". -/
theorem C7_theorem :
    matchesAlt [cs "***", cs "___"] (cs "***bold-italic***") =
      [cs "bold-italic"] ∧
    runsOf (applyBasicFormatting (mkElt (cs "***bold-italic***"))
        (cs "***bold-italic***")) =
      [(cs "**", {}), (cs "*", { bold := true }),
       (cs "bold-italic", { bold := true, italic := true }), (cs "***", {})] ∧
    runsOf (applyBasicFormatting (mkElt (cs "**bold** and *italic*"))
        (cs "**bold** and *italic*")) =
      [(cs "**", {}), (cs "bold", { bold := true }), (cs "** and *", {}),
       (cs "italic", { italic := true }), (cs "*", {})] ∧
    processAdvancedFormatting (cs "***bold-italic***") =
      cs "<b><i>bold-italic</b></i>" := by
  refine ⟨by decide, by decide, by decide, by decide⟩


/-! ## Claim C8 -/

theorem hrTest_shape :
    ∀ l : Str, hrTest l = true → ∃ r : Str, l = '-' :: '-' :: '-' :: r := by
  intro l h
  simp only [hrTest, Bool.and_eq_true, decide_eq_true_eq, List.all_eq_true] at h
  obtain ⟨hlen, hall⟩ := h
  rcases l with _ | ⟨c1, _ | ⟨c2, _ | ⟨c3, r⟩⟩⟩
  · simp at hlen
  · simp at hlen
  · simp at hlen
  · have e1 : c1 = '-' := by simpa using hall c1 (by simp)
    have e2 : c2 = '-' := by simpa using hall c2 (by simp)
    have e3 : c3 = '-' := by simpa using hall c3 (by simp)
    subst e1; subst e2; subst e3
    exact ⟨r, rfl⟩

theorem dashPrefixT_shape :
    ∀ l : Str, dashPrefixT l = true → ∃ r : Str, l = '-' :: '-' :: '-' :: r := by
  intro l h
  simp only [dashPrefixT, dashStr] at h
  rcases l with _ | ⟨c1, _ | ⟨c2, _ | ⟨c3, r⟩⟩⟩
  · simp [startsWithL] at h
  · simp [startsWithL] at h
  · simp [startsWithL] at h
  · simp only [startsWithL, Bool.and_eq_true, beq_iff_eq] at h
    obtain ⟨h1, h2, h3, _⟩ := h
    subst h1; subst h2; subst h3
    exact ⟨r, rfl⟩

set_option maxHeartbeats 1600000 in
/-- Claim C8 (amended): the classifier `determineLineType` (outside
code-block context) returns horizontalRule exactly for lines consisting
entirely of three or more dashes; the active line loop, by contrast,
treats every line that merely starts with "---" as a horizontal rule and
emits the HorizontalRule operation for it. -/
theorem C8_theorem :
    (∀ l : Str, Prod.fst (determineLineType false l) = LineType.horizontalRule ↔
      hrTest l = true) ∧
    (∀ (tb : Tables) (l : Str), dashPrefixT l = true →
      stepLine tb {} l = (({} : PState), [Op.horizontalRule])) := by
  constructor
  · intro l
    constructor
    · intro h
      simp only [determineLineType] at h
      split_ifs at h <;> simp_all
    · intro h
      obtain ⟨r, rfl⟩ := hrTest_shape l h
      have e1 : codeFenceT ('-' :: '-' :: '-' :: r) = false := rfl
      have e2 : headingT ('-' :: '-' :: '-' :: r) = false := rfl
      have e3 : isListT ('-' :: '-' :: '-' :: r) = false := rfl
      have e4 : isBqU ('-' :: '-' :: '-' :: r) = false := rfl
      simp [determineLineType, e1, e2, e3, e4, h]
  · intro tb l h
    obtain ⟨r, rfl⟩ := dashPrefixT_shape l h
    have e1 : codeFenceT ('-' :: '-' :: '-' :: r) = false := rfl
    have e0 : (({} : PState)).inCodeBlock = false := rfl
    simp [stepLine, e1, e0, h]

/-- Claim C8 counterexample: the line "--- extra" begins with three dashes
but contains other characters; the conversion still emits a HorizontalRule
for it, although the horizontal-rule regex rejects it. -/
theorem C8_counterexample :
    opsOfLines [cs "--- extra"] = [Op.horizontalRule] ∧
    hrTest (cs "--- extra") = false := by
  refine ⟨by decide, by decide⟩

/-- Claim C8 witness: the classifier equivalence and the loop behavior
applied to concrete lines. -/
theorem C8_witness :
    Prod.fst (determineLineType false (cs "----")) = LineType.horizontalRule ∧
    stepLine emptyTables {} (cs "--- x") = (({} : PState), [Op.horizontalRule]) :=
  ⟨(C8_theorem.1 (cs "----")).mpr (by decide),
   C8_theorem.2 emptyTables (cs "--- x") (by decide)⟩

/-! ## Claim C9 -/

/-- Claim C9 counterexample: the footnote table consulted by a conversion
call is not exactly that of its own pre-scan.  After converting the single
line "[^a]: note", the module-global table still holds the definition of
"a"; a following conversion of "text[^a]" therefore consults a table with
an entry its own pre-scan never collected, and its emitted operation
stream differs from that of the same input converted in a fresh process. -/
theorem C9_counterexample :
    (parseOps emptyTables [cs "[^a]: note"]).1.fns (cs "a") = some (cs "note") ∧
    (collect emptyTables [cs "text[^a]"]).fns (cs "a") = none ∧
    ¬ ((parseOps (parseOps emptyTables [cs "[^a]: note"]).1 [cs "text[^a]"]).2 =
        (parseOps emptyTables [cs "text[^a]"]).2) := by
  refine ⟨by decide, by decide, by decide⟩

/-- Claim C9 (amended): the second pass never mutates the tables (in the
model it only reads them), and a conversion call re-run on the same input
immediately after -- starting from the module-global tables the first
call left behind -- emits exactly the same operation sequence, because
re-collecting the same definitions leaves the tables fixed. -/
theorem C9_theorem (g : Tables) (L : List Str) :
    (parseOps (parseOps g L).1 L).2 = (parseOps g L).2 := by
  show mainPassOps (collect (collect g L) L) L = mainPassOps (collect g L) L
  rw [collect_idem]

/-! ## Claim C10 -/

/-- Claim C10: for every paragraph-text occurrence of a reference-style
link usage "[text][id]" -- in any left context free of `[` and any right
context -- the usage is replaced by the link text followed by the
definition URL in parentheses when `id` has a collected definition, and by
the bare link text with both bracket groups removed when it has none; the
replacement function is total, so no error is raised in either case. -/
theorem C10_theorem :
    ∀ (pre t w post : Str) (links : Str → Option (Str × Str)),
    (∀ c ∈ pre, (c == '[') = false) →
    t ≠ [] → (∀ c ∈ t, (c == ']') = false) →
    w ≠ [] → (∀ c ∈ w, isWord c = true) →
    processReferenceLinksInText links
        (pre ++ '[' :: (t ++ ']' :: '[' :: (w ++ ']' :: post))) =
      pre ++ ((match links w with
               | some ut => t ++ ' ' :: '(' :: ut.1 ++ [')']
               | none => t) ++ processReferenceLinksInText links post) := by
  intro pre t w post links hpre ht htc hw hwc
  induction pre with
  | nil =>
    simp only [List.nil_append]
    exact refLinks_at_match links t w post ht htc hw hwc
  | cons c pr ih =>
    have hc : ¬ c = '[' := by
      have := hpre c (by simp)
      simp at this
      exact this
    show processReferenceLinksInText links
        (c :: (pr ++ '[' :: (t ++ ']' :: '[' :: (w ++ ']' :: post)))) = _
    rw [refLinks_cons links c _ hc]
    rw [ih (fun z hz => hpre z (by simp [hz]))]
    rfl

/-- Claim C10 witness: the theorem applied to a defined id and to an
undefined id at concrete inputs. -/
theorem C10_witness :
    processReferenceLinksInText
        (updF (fun _ => none) (cs "id") (cs "http://e", cs ""))
        (cs "see [text][id]!") = cs "see text (http://e)!" ∧
    processReferenceLinksInText (fun _ => none)
        (cs "see [text][id]!") = cs "see text!" := by
  constructor
  · have h := C10_theorem (cs "see ") (cs "text") (cs "id") (cs "!")
      (updF (fun _ => none) (cs "id") (cs "http://e", cs ""))
      (by decide) (by decide) (by decide) (by decide) (by decide)
    have heq : cs "see [text][id]!" =
        cs "see " ++ '[' :: (cs "text" ++ ']' :: '[' :: (cs "id" ++ ']' :: cs "!")) := by
      decide
    rw [heq, h]
    decide
  · have h := C10_theorem (cs "see ") (cs "text") (cs "id") (cs "!")
      (fun _ => none)
      (by decide) (by decide) (by decide) (by decide) (by decide)
    have heq : cs "see [text][id]!" =
        cs "see " ++ '[' :: (cs "text" ++ ']' :: '[' :: (cs "id" ++ ']' :: cs "!")) := by
      decide
    rw [heq, h]
    decide


end MD
